import Mathlib

/-!
Shallow embedding of the workspace-exporter pipeline.

Source files modelled:
* `utils.ts` — `HEADER_BEGIN`/`HEADER_END`, `estimateTokens`, `generateFileTree`,
  `formatOutput`, `isBinary`.
* `exporter.ts` — `ExporterService.processFiles` (the streaming per-file
  read / binary-classify / decode / encode generator).
* `extension.ts` — the chunk-assembly loop inside `exportWithTemplate`
  (accumulating `currentChunkContent`, flushing via `saveChunk`).

External collaborators are modelled as parameters:
* the UTF-8 `TextDecoder` as `decode : List Nat → String` (it is configured
  non-fatal, so it is a total function);
* the host collation `String.prototype.localeCompare` as
  `cmp : String → String → Int` (locale-dependent comparator);
* `vscode.workspace.fs.readFile` outcomes as `Option (List Nat)` per file
  (`none` models a thrown read error);
* the `CancellationToken` as a monotone threshold `cancelAt : Option Nat`
  (the token reads `false` at the first `cancelAt.getD ∞` polls and `true`
  from then on; `none` means the token is never cancelled).

JavaScript strings are measured in UTF-16 code units, so string length is
modelled by `utf16Length` below rather than Lean's code-point count.
-/

/-- UTF-16 code units of one character: one unit below U+10000, a surrogate
pair (two units) at or above it. -/
def charUtf16Units (c : Char) : List Nat :=
  if c.toNat < 0x10000 then [c.toNat]
  else [0xD800 + (c.toNat - 0x10000) / 0x400, 0xDC00 + (c.toNat - 0x10000) % 0x400]

/-- UTF-16 code-unit sequence of a string (the units JavaScript indexes). -/
def utf16Units (s : String) : List Nat :=
  (s.data.map charUtf16Units).flatten

/-- Models JavaScript `s.length`: the number of UTF-16 code units. -/
def utf16Length (s : String) : Nat :=
  (utf16Units s).length

/-- Source: `utils.ts` — `HEADER_BEGIN`. -/
def HEADER_BEGIN : String := "<<<WORKSPACE_EXPORTER_FILE_BEGIN>>>"

/-- Source: `utils.ts` — `HEADER_END`. -/
def HEADER_END : String := "<<<WORKSPACE_EXPORTER_FILE_END>>>"

/-- Source: `utils.ts` — `estimateTokens(text) = Math.ceil(text.length / 4)`,
with `text.length` the UTF-16 code-unit count; `(n + 3) / 4` is `ceil(n/4)`
on naturals. -/
def estimateTokens (text : String) : Nat :=
  (utf16Length text + 3) / 4

/-- An element of the `filesContent` array passed to `formatOutput`. -/
structure FileEntry where
  path : String
  content : String
deriving Repr, DecidableEq

/-- Models `f.path.split('.').pop() || ''` from the markdown branch. -/
def extForPath (p : String) : String :=
  ((p.splitOn ".").getLast?).getD ""

/-- Source: `utils.ts` — `formatOutput(filesContent, format)`. The `xml`
branch wraps the joined per-file elements in a `<workspace>` root, the
`markdown` branch emits fenced code blocks, and every other format string
falls through to the text branch with the sentinel header lines. -/
def formatOutput (filesContent : List FileEntry) (format : String) : String :=
  if format = "xml" then
    "<workspace>\n" ++
      String.intercalate "\n" (filesContent.map (fun f =>
        "  <file path=\"" ++ f.path ++ "\">\n    <![CDATA[\n" ++ f.content ++
          "\n    ]]>\n  </file>")) ++
      "\n</workspace>"
  else if format = "markdown" then
    String.intercalate "\n" (filesContent.map (fun f =>
      "## File: " ++ f.path ++ "\n```" ++ extForPath f.path ++ "\n" ++ f.content ++ "\n```\n"))
  else
    String.intercalate "\n" (filesContent.map (fun f =>
      HEADER_BEGIN ++ " path=\"" ++ f.path ++ "\"\n" ++ f.content ++ "\n" ++
        HEADER_END ++ " path=\"" ++ f.path ++ "\"\n"))

/-- Source: `utils.ts` — `isBinary(buffer)`: scan
`min(buffer.length, 8000)` leading bytes for a `0x00` byte. -/
def isBinary (buffer : List Nat) : Bool :=
  (buffer.take 8000).any (fun b => b == 0)

/-- A file handed to `processFiles`: its workspace-relative path and the
outcome of `vscode.workspace.fs.readFile` (`none` models a read failure
that would be thrown and caught). -/
structure InputFile where
  relPath : String
  bytes : Option (List Nat)
deriving Repr, DecidableEq

/-- Source: `exporter.ts` — the `ExportConfig` interface. -/
structure ExportConfig where
  outputFormat : String
  includeFileTree : Bool
  globalExcludes : List String
deriving Repr, DecidableEq

/-- Source: `exporter.ts` `processFiles`, per-file body: read the bytes
(the `catch` branch substitutes the literal error marker), classify
binary content before decoding, otherwise decode as UTF-8. -/
def loadFileContent (decode : List Nat → String) (bytes : Option (List Nat)) : String :=
  match bytes with
  | some b => if isBinary b then "[Binary File Omitted]" else decode b
  | none => "ERROR READING FILE"

/-- Source: `exporter.ts` `processFiles`, step 2 — `files.sort((a, b) =>
relA.localeCompare(relB))`: a stable sort by the comparator. -/
def sortFiles (cmp : String → String → Int) (files : List InputFile) : List InputFile :=
  files.mergeSort (fun a b => decide (cmp a.relPath b.relPath ≤ 0))

/-- Lexicographic order on UTF-16 code-unit sequences: the comparison JS
`Array.prototype.sort` applies to strings when no comparator is given. -/
def utf16LeB : List Nat → List Nat → Bool
  | [], _ => true
  | _ :: _, [] => false
  | a :: as, b :: bs => if a < b then true else if b < a then false else utf16LeB as bs

/-- Models `relativePaths.sort()` (default comparator) from `processFiles`. -/
def jsDefaultSort (paths : List String) : List String :=
  paths.mergeSort (fun a b => utf16LeB (utf16Units a) (utf16Units b))

/-- The nested-object trie `generateFileTree` builds: children keyed by path
segment, in insertion order. -/
inductive FileTree where
  | node (children : List (String × FileTree))
deriving Repr

/-- Children of a trie node. -/
def FileTree.children : FileTree → List (String × FileTree)
  | .node cs => cs

/-- Models `Object.keys(node[key]).length > 0`: a segment with children is a
directory. -/
def FileTree.isDir (t : FileTree) : Bool :=
  !t.children.isEmpty

/-- One `paths.forEach` iteration of the tree builder: walk the split path,
creating missing nodes (`if (!current[part]) current[part] = {}`). -/
def insertParts : FileTree → List String → FileTree
  | t, [] => t
  | .node cs, p :: rest =>
    match cs.lookup p with
    | some sub => .node (cs.map (fun kv => if kv.1 = p then (p, insertParts sub rest) else kv))
    | none => .node (cs ++ [(p, insertParts (.node []) rest)])

/-- The trie built from all paths, splitting each on `/`. -/
def buildTree (paths : List String) : FileTree :=
  paths.foldl (fun t p => insertParts t (p.splitOn "/")) (.node [])

/-- Source: the `keys.sort` comparator in `renderNode`: directories first,
then `a.localeCompare(b)` among equals. -/
def sortChildren (cmp : String → String → Int) (cs : List (String × FileTree)) :
    List (String × FileTree) :=
  cs.mergeSort (fun a b =>
    if a.2.isDir && !b.2.isDir then true
    else if !a.2.isDir && b.2.isDir then false
    else decide (cmp a.1 b.1 ≤ 0))

/-- Source: `renderNode` from `generateFileTree`: for each sorted child emit
`prefix ++ connector ++ key ++ "\n"`, recursing into directories with the
extended prefix. The `fuel` argument only bounds the recursion depth for
Lean's termination checker; `generateFileTree` supplies a bound larger
than the trie's depth, so it never runs out on a tree built from the same
paths. -/
def renderRows (cmp : String → String → Int) :
    Nat → List (String × FileTree) → String → String
  | 0, _, _ => ""
  | _ + 1, [], _ => ""
  | fuel + 1, kv :: rest, pre =>
    let connector := if rest.isEmpty then "└── " else "├── "
    let childPre := if rest.isEmpty then "    " else "│   "
    pre ++ connector ++ kv.1 ++ "\n" ++
      (if kv.2.isDir then renderRows cmp fuel (sortChildren cmp kv.2.children) (pre ++ childPre)
        else "") ++
      renderRows cmp (fuel + 1) rest pre

/-- Source: `utils.ts` — `generateFileTree(paths)`: build the trie, render
it under the fixed heading, and append the `'='.repeat(50)` separator.
`cmp` stands for the `localeCompare` collation used inside `renderNode`. -/
def generateFileTree (cmp : String → String → Int) (paths : List String) : String :=
  let tree := buildTree paths
  let fuel := (paths.map (fun p => (p.splitOn "/").length)).foldl (· + ·) 0 + 1
  "Project Structure:\n" ++ renderRows cmp fuel (sortChildren cmp tree.children) "" ++
    "\n" ++ String.mk (List.replicate 50 '=') ++ "\n\n"

/-- Source: `exporter.ts` — `ExporterService.processFiles(files, config)` as
the list of strings the async generator yields, in yield order: first the
file tree (when enabled and the format is not `xml`, over the
default-sorted relative paths), then one `formatOutput` fragment per file
in `localeCompare`-sorted order. -/
def processFiles (decode : List Nat → String) (cmp : String → String → Int)
    (files : List InputFile) (config : ExportConfig) : List String :=
  let treePart :=
    if config.includeFileTree ∧ config.outputFormat ≠ "xml" then
      [generateFileTree cmp (jsDefaultSort (files.map (fun f => f.relPath)))]
    else []
  treePart ++ (sortFiles cmp files).map (fun f =>
    formatOutput [{ path := f.relPath, content := loadFileContent decode f.bytes }]
      config.outputFormat)

/-- The `console.error` notices `processFiles` sends to the diagnostic
channel: one per file whose read failed, in processing order. -/
def processFilesLog (cmp : String → String → Int) (files : List InputFile) : List String :=
  (sortFiles cmp files).filterMap (fun f =>
    match f.bytes with
    | none => some ("Failed to read " ++ f.relPath)
    | some _ => none)

/-- Source: `extension.ts` `exportWithTemplate`, lines 127-138 — one loop
iteration over a yielded `fileOutput`: when a positive `chunkSize` is set
and appending would exceed it while the buffer is non-empty, the buffer is
saved as a chunk and reset before the fragment is appended. -/
def chunkStep (chunkSize : Nat) (st : List String × String) (fileOutput : String) :
    List String × String :=
  let chunks := st.1
  let currentChunkContent := st.2
  if 0 < chunkSize then
    if chunkSize < estimateTokens currentChunkContent + estimateTokens fileOutput
        ∧ 0 < utf16Length currentChunkContent then
      (chunks ++ [currentChunkContent], "" ++ fileOutput)
    else
      (chunks, currentChunkContent ++ fileOutput)
  else
    (chunks, currentChunkContent ++ fileOutput)

/-- Whether the cancellation token reads `true` at its `checkIdx`-th poll:
the token is monotone, turning (and staying) cancelled from poll
`cancelAt` on; `none` models a token that is never cancelled. -/
def cancelRequested (cancelAt : Option Nat) (checkIdx : Nat) : Bool :=
  match cancelAt with
  | none => false
  | some k => decide (k ≤ checkIdx)

/-- Source: `extension.ts` `exportWithTemplate`, the `for await` loop —
polls the token at the top of every iteration (`break` on `true`), else
feeds the fragment through `chunkStep`. Returns the final accumulator
state plus the index of the next token poll. -/
def exportLoop (chunkSize : Nat) (cancelAt : Option Nat) :
    List String → Nat → List String × String → (List String × String) × Nat
  | [], i, st => (st, i)
  | fileOutput :: rest, i, st =>
    if cancelRequested cancelAt i then (st, i)
    else exportLoop chunkSize cancelAt rest (i + 1) (chunkStep chunkSize st fileOutput)

/-- Source: `extension.ts` `exportWithTemplate`, lines 124-149 — the chunk
assembly over the fragment stream: run the loop, then flush the remaining
buffer only when it is non-empty and the token still reads uncancelled.
The result lists the `saveChunk` payloads (the emitted Segments) in
emission order. -/
def exportWithTemplate (chunkSize : Nat) (cancelAt : Option Nat) (frags : List String) :
    List String :=
  let result := exportLoop chunkSize cancelAt frags 0 ([], "")
  let chunks := result.1.1
  let currentChunkContent := result.1.2
  if 0 < utf16Length currentChunkContent ∧ cancelRequested cancelAt result.2 = false then
    chunks ++ [currentChunkContent]
  else chunks

/-- The whole pipeline: `processFiles` fragments fed through the chunk
assembly of `exportWithTemplate`. -/
def exportPipeline (decode : List Nat → String) (cmp : String → String → Int)
    (files : List InputFile) (config : ExportConfig)
    (chunkSize : Nat) (cancelAt : Option Nat) : List String :=
  exportWithTemplate chunkSize cancelAt (processFiles decode cmp files config)

/-! ### Basic string and UTF-16 lemmas -/

theorem string_eq_empty_iff {s : String} : s = "" ↔ s.data = [] := by
  constructor
  · intro h; rw [h]
  · intro h; exact String.ext h

theorem string_append_ne_empty_left {a : String} (b : String) (h : a ≠ "") :
    a ++ b ≠ "" := by
  intro hab
  apply h
  rw [string_eq_empty_iff] at hab ⊢
  rw [String.data_append] at hab
  exact (List.append_eq_nil.mp hab).1

theorem charUtf16Units_length_pos (c : Char) : 0 < (charUtf16Units c).length := by
  unfold charUtf16Units
  split <;> simp

theorem utf16Units_append (a b : String) :
    utf16Units (a ++ b) = utf16Units a ++ utf16Units b := by
  simp [utf16Units, String.data_append]

theorem utf16Length_append (a b : String) :
    utf16Length (a ++ b) = utf16Length a + utf16Length b := by
  simp [utf16Length, utf16Units_append]

theorem data_length_le_utf16Length (s : String) : s.data.length ≤ utf16Length s := by
  unfold utf16Length utf16Units
  induction s.data with
  | nil => simp
  | cons c t ih =>
    simp only [List.map_cons, List.flatten_cons, List.length_append, List.length_cons]
    have := charUtf16Units_length_pos c
    omega

theorem utf16Length_pos {s : String} (h : s ≠ "") : 0 < utf16Length s := by
  have hd : s.data ≠ [] := fun hh => h (string_eq_empty_iff.mpr hh)
  have h1 : 0 < s.data.length := List.length_pos.mpr hd
  have h2 := data_length_le_utf16Length s
  omega

theorem ne_empty_of_utf16Length_pos {s : String} (h : 0 < utf16Length s) : s ≠ "" := by
  intro he
  rw [he] at h
  simp [utf16Length, utf16Units] at h

theorem estimateTokens_append_le (a b : String) :
    estimateTokens (a ++ b) ≤ estimateTokens a + estimateTokens b := by
  unfold estimateTokens
  rw [utf16Length_append]
  omega

/-! ### `String.join` algebra -/

theorem strFoldl_append (l : List String) :
    ∀ x : String, List.foldl (fun r s => r ++ s) x l
      = x ++ List.foldl (fun r s => r ++ s) "" l := by
  induction l with
  | nil => intro x; simp
  | cons a t ih =>
    intro x
    rw [List.foldl_cons, List.foldl_cons, ih (x ++ a), ih ("" ++ a),
      String.empty_append, String.append_assoc]

theorem strJoin_nil : String.join [] = "" := rfl

theorem strJoin_cons (a : String) (l : List String) :
    String.join (a :: l) = a ++ String.join l := by
  show List.foldl (fun r s => r ++ s) "" (a :: l) = _
  rw [List.foldl_cons, strFoldl_append, String.empty_append]
  rfl

theorem strJoin_singleton (a : String) : String.join [a] = a := by
  rw [strJoin_cons, strJoin_nil, String.append_empty]

theorem strJoin_append (l₁ l₂ : List String) :
    String.join (l₁ ++ l₂) = String.join l₁ ++ String.join l₂ := by
  induction l₁ with
  | nil => simp [strJoin_nil]
  | cons a t ih => rw [List.cons_append, strJoin_cons, strJoin_cons, ih, String.append_assoc]

theorem strJoin_eq_nil {l : List String} (hne : ∀ x ∈ l, x ≠ "")
    (hj : String.join l = "") : l = [] := by
  cases l with
  | nil => rfl
  | cons a t =>
    rw [strJoin_cons] at hj
    exact absurd hj (string_append_ne_empty_left _ (hne a (List.mem_cons_self a t)))

theorem strJoin_map_join (gs : List (List String)) :
    String.join (gs.map String.join) = String.join gs.flatten := by
  induction gs with
  | nil => rfl
  | cons g t ih => rw [List.map_cons, strJoin_cons, List.flatten_cons, strJoin_append, ih]

/-! ### Chunk-assembly loop lemmas -/

theorem chunkStep_eq (chunkSize : Nat) (chunks : List String) (buf f : String) :
    chunkStep chunkSize (chunks, buf) f =
      if 0 < chunkSize ∧ chunkSize < estimateTokens buf + estimateTokens f
          ∧ 0 < utf16Length buf
      then (chunks ++ [buf], f)
      else (chunks, buf ++ f) := by
  unfold chunkStep
  by_cases h1 : 0 < chunkSize
  · by_cases h2 : chunkSize < estimateTokens buf + estimateTokens f ∧ 0 < utf16Length buf
    · simp [h1, h2]
    · simp [h1, h2]
  · simp [h1]

theorem exportLoop_none (chunkSize : Nat) :
    ∀ (frags : List String) (i : Nat) (st : List String × String),
      exportLoop chunkSize none frags i st
        = (List.foldl (chunkStep chunkSize) st frags, i + frags.length) := by
  intro frags
  induction frags with
  | nil => intro i st; simp [exportLoop]
  | cons f rest ih =>
    intro i st
    rw [exportLoop]
    simp only [cancelRequested, if_false, Bool.false_eq_true, ite_false]
    rw [ih, List.foldl_cons, List.length_cons]
    simp only [Prod.mk.injEq, true_and]
    omega

theorem exportLoop_some (chunkSize k : Nat) :
    ∀ (frags : List String) (i : Nat) (st : List String × String),
      exportLoop chunkSize (some k) frags i st
        = (List.foldl (chunkStep chunkSize) st (frags.take (k - i)),
            i + min (k - i) frags.length) := by
  intro frags
  induction frags with
  | nil => intro i st; simp [exportLoop]
  | cons f rest ih =>
    intro i st
    rw [exportLoop]
    simp only [cancelRequested]
    by_cases hk : k ≤ i
    · have h0 : k - i = 0 := by omega
      simp [hk, h0]
    · have h1 : k - i = (k - (i + 1)) + 1 := by omega
      simp only [hk, decide_False, Bool.false_eq_true, ite_false]
      rw [ih, h1, List.take_succ_cons, List.foldl_cons, List.length_cons]
      simp only [Prod.mk.injEq, true_and]
      omega

theorem chunkFold_fst_mono (chunkSize : Nat) :
    ∀ (frags : List String) (st : List String × String),
      ∃ t, (List.foldl (chunkStep chunkSize) st frags).1 = st.1 ++ t := by
  intro frags
  induction frags with
  | nil => intro st; exact ⟨[], by simp⟩
  | cons f rest ih =>
    intro st
    obtain ⟨chunks, buf⟩ := st
    rw [List.foldl_cons, chunkStep_eq]
    split
    · obtain ⟨t, ht⟩ := ih (chunks ++ [buf], f)
      exact ⟨[buf] ++ t, by rw [ht]; simp⟩
    · obtain ⟨t, ht⟩ := ih (chunks, buf ++ f)
      exact ⟨t, ht⟩

/-- Ghost-partition invariant of the chunk-assembly fold: starting from a
state whose emitted chunks are the joins of groups `gs` and whose buffer
is the join of the fragment group `gb`, folding further (non-empty)
fragments yields a state of the same shape, the groups together laying
out exactly the fragments fed so far; every flushed group is non-empty,
an over-budget flushed group is a single fragment, and a multi-fragment
buffer stays within a positive budget. -/
theorem chunkFold_invariant (chunkSize : Nat) :
    ∀ frags : List String, (∀ f ∈ frags, f ≠ "") →
    ∀ (gs : List (List String)) (gb : List String),
      (∀ g ∈ gs, g ≠ []) →
      (∀ g ∈ gs, chunkSize < estimateTokens (String.join g) → g.length = 1) →
      (∀ x ∈ gb, x ≠ "") →
      (0 < chunkSize → 2 ≤ gb.length → estimateTokens (String.join gb) ≤ chunkSize) →
      ∃ (gs2 : List (List String)) (gb2 : List String),
        List.foldl (chunkStep chunkSize) (gs.map String.join, String.join gb) frags
          = (gs2.map String.join, String.join gb2) ∧
        gs2.flatten ++ gb2 = gs.flatten ++ gb ++ frags ∧
        (∀ g ∈ gs2, g ≠ []) ∧
        (∀ g ∈ gs2, chunkSize < estimateTokens (String.join g) → g.length = 1) ∧
        (∀ x ∈ gb2, x ≠ "") ∧
        (0 < chunkSize → 2 ≤ gb2.length → estimateTokens (String.join gb2) ≤ chunkSize) := by
  intro frags
  induction frags with
  | nil =>
    intro _ gs gb h1 h2 h3 h4
    exact ⟨gs, gb, by simp, by simp, h1, h2, h3, h4⟩
  | cons f rest ih =>
    intro hne gs gb h1 h2 h3 h4
    have hf : f ≠ "" := hne f (List.mem_cons_self f rest)
    have hne' : ∀ x ∈ rest, x ≠ "" := fun x hx => hne x (List.mem_cons_of_mem f hx)
    rw [List.foldl_cons, chunkStep_eq]
    by_cases hc : 0 < chunkSize
        ∧ chunkSize < estimateTokens (String.join gb) + estimateTokens f
        ∧ 0 < utf16Length (String.join gb)
    · -- flush branch: emit the buffer, restart it with `f`
      rw [if_pos hc]
      have hgbne : gb ≠ [] := by
        intro hgb
        rw [hgb, strJoin_nil] at hc
        simp [utf16Length, utf16Units] at hc
      have hstate : (gs.map String.join ++ [String.join gb], f)
          = ((gs ++ [gb]).map String.join, String.join [f]) := by
        simp [strJoin_singleton]
      rw [hstate]
      obtain ⟨gs2, gb2, heq, hflat, p1, p2, p3, p4⟩ :=
        ih hne' (gs ++ [gb]) [f]
          (by
            intro g hg
            rcases List.mem_append.mp hg with h | h
            · exact h1 g h
            · rw [List.mem_singleton] at h; subst h; exact hgbne)
          (by
            intro g hg hover
            rcases List.mem_append.mp hg with h | h
            · exact h2 g h hover
            · rw [List.mem_singleton] at h; subst h
              have hle1 : g.length ≤ 1 := by
                by_contra hlen
                have := h4 hc.1 (by omega)
                omega
              have hpos : 0 < g.length := List.length_pos.mpr hgbne
              omega)
          (by intro x hx; rw [List.mem_singleton] at hx; subst hx; exact hf)
          (by intro _ hlen; simp at hlen)
      refine ⟨gs2, gb2, heq, ?_, p1, p2, p3, p4⟩
      rw [hflat]
      simp [List.append_assoc]
    · -- append branch
      rw [if_neg hc]
      by_cases hgb : gb = []
      · subst hgb
        have hstate : (gs.map String.join, String.join [] ++ f)
            = (gs.map String.join, String.join [f]) := by
          rw [strJoin_nil, strJoin_singleton, String.empty_append]
        rw [hstate]
        obtain ⟨gs2, gb2, heq, hflat, p1, p2, p3, p4⟩ :=
          ih hne' gs [f] h1 h2
            (by intro x hx; rw [List.mem_singleton] at hx; subst hx; exact hf)
            (by intro _ hlen; simp at hlen)
        refine ⟨gs2, gb2, heq, ?_, p1, p2, p3, p4⟩
        rw [hflat]
        simp
      · have hjne : String.join gb ≠ "" := fun hj => hgb (strJoin_eq_nil h3 hj)
        have hpos : 0 < utf16Length (String.join gb) := utf16Length_pos hjne
        have hstate : (gs.map String.join, String.join gb ++ f)
            = (gs.map String.join, String.join (gb ++ [f])) := by
          rw [strJoin_append, strJoin_singleton]
        rw [hstate]
        obtain ⟨gs2, gb2, heq, hflat, p1, p2, p3, p4⟩ :=
          ih hne' gs (gb ++ [f]) h1 h2
            (by
              intro x hx
              rcases List.mem_append.mp hx with h | h
              · exact h3 x h
              · rw [List.mem_singleton] at h; subst h; exact hf)
            (by
              intro hcs _
              rw [strJoin_append, strJoin_singleton]
              have hsub := estimateTokens_append_le (String.join gb) f
              have hbound : estimateTokens (String.join gb) + estimateTokens f ≤ chunkSize := by
                by_contra hgt
                exact hc ⟨hcs, by omega, hpos⟩
              omega)
        refine ⟨gs2, gb2, heq, ?_, p1, p2, p3, p4⟩
        rw [hflat]
        simp [List.append_assoc]

/-- Partition form of an uncancelled chunk-assembly run: the emitted
Segments are the concatenations of consecutive non-empty groups of the
input fragments; with a positive budget an over-budget Segment is a
single fragment. -/
theorem exportWithTemplate_partition (chunkSize : Nat) (frags : List String)
    (hne : ∀ f ∈ frags, f ≠ "") :
    ∃ groups : List (List String),
      groups.flatten = frags ∧
      exportWithTemplate chunkSize none frags = groups.map String.join ∧
      (∀ g ∈ groups, g ≠ []) ∧
      (0 < chunkSize →
        ∀ g ∈ groups, chunkSize < estimateTokens (String.join g) → g.length = 1) := by
  obtain ⟨gs2, gb2, heq, hflat, p1, p2, p3, p4⟩ :=
    chunkFold_invariant chunkSize frags hne [] [] (by simp) (by simp) (by simp)
      (by intro _ h; simp at h)
  simp only [List.map_nil, strJoin_nil, List.flatten_nil, List.nil_append] at heq hflat
  unfold exportWithTemplate
  rw [exportLoop_none, heq]
  simp only [cancelRequested]
  by_cases hbuf : 0 < utf16Length (String.join gb2)
  · rw [if_pos (by exact ⟨hbuf, by trivial⟩)]
    have hgb2ne : gb2 ≠ [] := by
      intro h
      rw [h, strJoin_nil] at hbuf
      simp [utf16Length, utf16Units] at hbuf
    refine ⟨gs2 ++ [gb2], ?_, ?_, ?_, ?_⟩
    · rw [List.flatten_append]; simpa using hflat
    · simp
    · intro g hg
      rcases List.mem_append.mp hg with h | h
      · exact p1 g h
      · rw [List.mem_singleton] at h; subst h; exact hgb2ne
    · intro hcs g hg hover
      rcases List.mem_append.mp hg with h | h
      · exact p2 g h hover
      · rw [List.mem_singleton] at h; subst h
        have hle1 : g.length ≤ 1 := by
          by_contra hlen
          have := p4 hcs (by omega)
          omega
        have hpos : 0 < g.length := List.length_pos.mpr hgb2ne
        omega
  · rw [if_neg (by intro h; exact hbuf h.1)]
    have hj : String.join gb2 = "" := by
      by_contra h
      exact hbuf (utf16Length_pos h)
    have hgb2 : gb2 = [] := strJoin_eq_nil p3 hj
    subst hgb2
    refine ⟨gs2, ?_, rfl, p1, fun hcs g hg => p2 g hg⟩
    simpa using hflat

/-! ### Non-emptiness of pipeline fragments -/

theorem strIntercalate_singleton (s a : String) : String.intercalate s [a] = a := rfl

theorem formatOutput_singleton_ne_empty (e : FileEntry) (format : String) :
    formatOutput [e] format ≠ "" := by
  unfold formatOutput
  by_cases hx : format = "xml"
  · rw [if_pos hx]
    apply string_append_ne_empty_left
    apply string_append_ne_empty_left
    decide
  · rw [if_neg hx]
    by_cases hm : format = "markdown"
    · rw [if_pos hm, List.map_singleton, strIntercalate_singleton]
      repeat apply string_append_ne_empty_left
      decide
    · rw [if_neg hm, List.map_singleton, strIntercalate_singleton]
      repeat apply string_append_ne_empty_left
      decide

theorem generateFileTree_ne_empty (cmp : String → String → Int) (paths : List String) :
    generateFileTree cmp paths ≠ "" := by
  unfold generateFileTree
  repeat apply string_append_ne_empty_left
  decide

theorem processFiles_ne_empty (decode : List Nat → String) (cmp : String → String → Int)
    (files : List InputFile) (config : ExportConfig) :
    ∀ x ∈ processFiles decode cmp files config, x ≠ "" := by
  intro x hx
  unfold processFiles at hx
  simp only at hx
  rcases List.mem_append.mp hx with h | h
  · split at h
    · rw [List.mem_singleton] at h
      subst h
      exact generateFileTree_ne_empty _ _
    · simp at h
  · obtain ⟨f, _, hfx⟩ := List.mem_map.mp h
    rw [← hfx]
    exact formatOutput_singleton_ne_empty _ _

/-! ### Binary-classification lemmas -/

theorem any_replicate_one_eq_false (n : Nat) :
    (List.replicate n (1 : Nat)).any (fun b => b == 0) = false := by
  induction n with
  | zero => rfl
  | succ m ih => rw [List.replicate_succ, List.any_cons, ih]; rfl

theorem isBinary_iff (bytes : List Nat) :
    isBinary bytes = true ↔ ∃ i, ∃ h : i < bytes.length, i < 8000 ∧ bytes.get ⟨i, h⟩ = 0 := by
  unfold isBinary
  rw [List.any_eq_true]
  constructor
  · rintro ⟨x, hmem, hx⟩
    obtain ⟨n, hn, hget⟩ := List.mem_iff_getElem.mp hmem
    have hn' := hn
    rw [List.length_take] at hn'
    have hlen : n < bytes.length := by omega
    have h8 : n < 8000 := by omega
    refine ⟨n, hlen, h8, ?_⟩
    rw [List.get_eq_getElem]
    rw [List.getElem_take] at hget
    rw [hget]
    simpa using hx
  · rintro ⟨i, h, h8, hval⟩
    rw [List.get_eq_getElem] at hval
    refine ⟨0, ?_, by rfl⟩
    apply List.mem_iff_getElem.mpr
    refine ⟨i, ?_, ?_⟩
    · rw [List.length_take]; omega
    · rw [List.getElem_take]; exact hval

/-! ### Claim C6 — binary classification boundary -/

/-- C6: a file is classified binary iff some byte among the first 8000
bytes (offsets 0–7999) of its raw payload equals 0x00, in which case its
content becomes the fixed placeholder `"[Binary File Omitted]"`; a buffer
whose only zero byte sits at offset 8001 (after 8001 non-zero bytes) is
classified text; non-binary payloads are decoded as UTF-8 (the decoder
collaborator applied to the bytes). -/
theorem binary_classification :
    (∀ bytes : List Nat,
      isBinary bytes = true ↔ ∃ i, ∃ h : i < bytes.length, i < 8000 ∧ bytes.get ⟨i, h⟩ = 0) ∧
    (∀ (decode : List Nat → String) (bytes : List Nat),
      isBinary bytes = true →
        loadFileContent decode (some bytes) = "[Binary File Omitted]") ∧
    (∀ (decode : List Nat → String) (bytes : List Nat),
      isBinary bytes = false → loadFileContent decode (some bytes) = decode bytes) ∧
    isBinary (List.replicate 7999 1 ++ 0 :: List.replicate 2 1) = true ∧
    isBinary (List.replicate 8001 1 ++ [0]) = false := by
  refine ⟨isBinary_iff, ?_, ?_, ?_, ?_⟩
  · intro decode bytes h
    simp [loadFileContent, h]
  · intro decode bytes h
    simp [loadFileContent, h]
  · unfold isBinary
    rw [List.take_append_eq_append_take, List.length_replicate,
      (by omega : 8000 - 7999 = 1), List.take_succ_cons, List.take_zero,
      List.take_replicate, (by omega : min 8000 7999 = 7999), List.any_append,
      any_replicate_one_eq_false]
    rfl
  · unfold isBinary
    rw [List.take_append_eq_append_take, List.length_replicate,
      (by omega : 8000 - 8001 = 0), List.take_zero, List.append_nil,
      List.take_replicate, (by omega : min 8000 8001 = 8000)]
    exact any_replicate_one_eq_false 8000

/-- Witness for C6 at concrete buffers. -/
theorem binary_classification_witness :
    isBinary [72, 101] = false ∧
    loadFileContent (fun _ => "ok") (some [72, 101]) = "ok" :=
  ⟨by decide, by rw [binary_classification.2.2.1 (fun _ => "ok") [72, 101] (by decide)]⟩

/-! ### Claim C9 — size estimator formula -/

/-- C9: `estimateTokens` returns `ceil(n / 4)` where `n` is the UTF-16
code-unit count (characterised by `n ≤ 4·est < n + 4`); the empty string
maps to 0, strings of 1–4 units to 1, strings of 5–8 units to 2. -/
theorem estimateTokens_spec (s : String) :
    (utf16Length s ≤ 4 * estimateTokens s ∧ 4 * estimateTokens s < utf16Length s + 4) ∧
    (s = "" → estimateTokens s = 0) ∧
    (1 ≤ utf16Length s ∧ utf16Length s ≤ 4 → estimateTokens s = 1) ∧
    (5 ≤ utf16Length s ∧ utf16Length s ≤ 8 → estimateTokens s = 2) := by
  unfold estimateTokens
  refine ⟨by omega, ?_, by omega, by omega⟩
  intro h
  subst h
  rfl

/-- Witness for C9 at concrete strings. -/
theorem estimateTokens_spec_witness :
    ((1 ≤ utf16Length "abc" ∧ utf16Length "abc" ≤ 4) ∧ estimateTokens "abc" = 1) ∧
    ((5 ≤ utf16Length "abcde" ∧ utf16Length "abcde" ≤ 8) ∧ estimateTokens "abcde" = 2) :=
  ⟨⟨by decide, (estimateTokens_spec "abc").2.2.1 (by decide)⟩,
   ⟨by decide, (estimateTokens_spec "abcde").2.2.2 (by decide)⟩⟩

/-! ### Claim C10 — implicit format fallback -/

/-- C10: every format string other than `"xml"` and `"markdown"` (including
`"text"` and unrecognised values) produces the plain-text representation:
per pair a begin-marker line with the quoted path, the raw content, and an
end-marker line with the same path, entries joined by a newline. -/
theorem formatOutput_fallback (format : String) (pairs : List FileEntry)
    (hxml : format ≠ "xml") (hmd : format ≠ "markdown") :
    formatOutput pairs format = formatOutput pairs "text" ∧
    formatOutput pairs format
      = String.intercalate "\n" (pairs.map (fun f =>
          HEADER_BEGIN ++ " path=\"" ++ f.path ++ "\"\n" ++ f.content ++ "\n" ++
            HEADER_END ++ " path=\"" ++ f.path ++ "\"\n")) := by
  constructor
  · unfold formatOutput
    rw [if_neg hxml, if_neg hmd, if_neg (by decide), if_neg (by decide)]
  · unfold formatOutput
    rw [if_neg hxml, if_neg hmd]

/-- Witness for C10 at an unrecognised format string. -/
theorem formatOutput_fallback_witness :
    (("custom" : String) ≠ "xml") ∧ (("custom" : String) ≠ "markdown") ∧
    formatOutput [⟨"a.txt", "hi"⟩] "custom" = formatOutput [⟨"a.txt", "hi"⟩] "text" :=
  ⟨by decide, by decide,
    (formatOutput_fallback "custom" [⟨"a.txt", "hi"⟩] (by decide) (by decide)).1⟩

/-! ### Claim C4 — empty-input encoding -/

/-- C4 counterexample: under the structured (xml) variant, encoding the
empty pair list yields the bare root wrapper, not the empty string. -/
theorem formatOutput_empty_xml_cex :
    formatOutput [] "xml" = "<workspace>\n\n</workspace>" ∧
    formatOutput [] "xml" ≠ "" :=
  ⟨by rfl, by decide⟩

/-- C4 amended: the plain-text and markdown variants return the empty
string on an empty pair list, while the xml variant returns
`"<workspace>\n\n</workspace>"`. -/
theorem formatOutput_empty (format : String) (h : format ≠ "xml") :
    formatOutput [] format = "" ∧
    formatOutput [] "xml" = "<workspace>\n\n</workspace>" := by
  refine ⟨?_, by rfl⟩
  unfold formatOutput
  rw [if_neg h]
  by_cases hm : format = "markdown"
  · rw [if_pos hm]; rfl
  · rw [if_neg hm]; rfl

/-- Witness for the amended C4 at the markdown variant. -/
theorem formatOutput_empty_witness :
    (("markdown" : String) ≠ "xml") ∧ formatOutput [] "markdown" = "" :=
  ⟨by decide, (formatOutput_empty "markdown" (by decide)).1⟩

/-! ### Claim C1 — budget soundness -/

/-- C1: for every sequence of (non-empty) encoded fragments and every
positive ChunkBudget, the emitted Segments partition the fragments into
consecutive runs, and any Segment whose estimated cost exceeds the budget
consists of exactly one fragment (equivalently, every multi-fragment
Segment costs at most the budget). -/
theorem budget_soundness (chunkSize : Nat) (frags : List String)
    (hpos : 0 < chunkSize) (hne : ∀ f ∈ frags, f ≠ "") :
    ∃ groups : List (List String),
      groups.flatten = frags ∧
      exportWithTemplate chunkSize none frags = groups.map String.join ∧
      ∀ g ∈ groups, chunkSize < estimateTokens (String.join g) → g.length = 1 := by
  obtain ⟨groups, h1, h2, _, h4⟩ := exportWithTemplate_partition chunkSize frags hne
  exact ⟨groups, h1, h2, h4 hpos⟩

/-- Witness for C1: budget 1 with one oversized fragment. -/
theorem budget_soundness_witness :
    (0 < 1) ∧ (∀ f ∈ ["aaaaaaaa", "bb"], f ≠ "") ∧
    ∃ groups : List (List String),
      groups.flatten = ["aaaaaaaa", "bb"] ∧
      exportWithTemplate 1 none ["aaaaaaaa", "bb"] = groups.map String.join ∧
      ∀ g ∈ groups, 1 < estimateTokens (String.join g) → g.length = 1 :=
  ⟨by decide, by decide, budget_soundness 1 ["aaaaaaaa", "bb"] (by decide) (by decide)⟩

/-! ### Claim C2 — atomicity and ordering of fragments -/

/-- C2: for every identifier list (with read outcomes), configuration and
ChunkBudget including 0, the emitted Segments split the `processFiles`
fragment stream into consecutive non-empty groups — so each per-file
fragment sits contiguously and unsplit inside exactly one Segment — and
the concatenation of all Segments equals the concatenation of the
fragments, which carries the per-file fragments in the Canonical
Orderer's (`processFiles` sort) order. -/
theorem atomicity_and_ordering (decode : List Nat → String) (cmp : String → String → Int)
    (files : List InputFile) (config : ExportConfig) (chunkSize : Nat) :
    ∃ groups : List (List String),
      groups.flatten = processFiles decode cmp files config ∧
      exportPipeline decode cmp files config chunkSize none = groups.map String.join ∧
      (∀ g ∈ groups, g ≠ []) ∧
      String.join (exportPipeline decode cmp files config chunkSize none)
        = String.join (processFiles decode cmp files config) := by
  obtain ⟨groups, h1, h2, h3, _⟩ :=
    exportWithTemplate_partition chunkSize (processFiles decode cmp files config)
      (processFiles_ne_empty decode cmp files config)
  refine ⟨groups, h1, h2, h3, ?_⟩
  show String.join (exportWithTemplate chunkSize none (processFiles decode cmp files config)) = _
  rw [h2, strJoin_map_join, h1]

/-! ### Claim C8 — cancellation semantics -/

/-- C8: when the token turns cancelled at poll `k` with `k ≤` the fragment
count (so cancellation is observed, always between fragments), the
assembler's output is exactly the Segments flushed while folding the
first `k` fragments: nothing further is emitted and the in-progress
buffer is discarded without flushing; moreover those Segments are an
unchanged prefix of the uncancelled run's output. -/
theorem cancellation_semantics (chunkSize k : Nat) (frags : List String)
    (hk : k ≤ frags.length) :
    exportWithTemplate chunkSize (some k) frags
      = (List.foldl (chunkStep chunkSize) ([], "") (frags.take k)).1 ∧
    ∃ t, (List.foldl (chunkStep chunkSize) ([], "") (frags.take k)).1 ++ t
      = exportWithTemplate chunkSize none frags := by
  have hsplit : List.foldl (chunkStep chunkSize) (([] : List String), "") frags
      = List.foldl (chunkStep chunkSize)
          (List.foldl (chunkStep chunkSize) ([], "") (frags.take k)) (frags.drop k) := by
    rw [← List.foldl_append, List.take_append_drop]
  obtain ⟨t, ht⟩ := chunkFold_fst_mono chunkSize (frags.drop k)
    (List.foldl (chunkStep chunkSize) ([], "") (frags.take k))
  constructor
  · unfold exportWithTemplate
    rw [exportLoop_some chunkSize k frags 0 ([], "")]
    simp only [Nat.sub_zero, Nat.zero_add, Nat.min_eq_left hk]
    split
    · next hcond =>
      exfalso
      have h2 := hcond.2
      simp [cancelRequested] at h2
    · rfl
  · unfold exportWithTemplate
    rw [exportLoop_none chunkSize frags 0 ([], "")]
    dsimp only
    split
    · refine ⟨t ++ [(List.foldl (chunkStep chunkSize) ([], "") frags).2], ?_⟩
      rw [← List.append_assoc, ← ht, ← hsplit]
    · exact ⟨t, by rw [← ht, ← hsplit]⟩

/-- Witness for C8: cancellation observed at poll 2 of three fragments. -/
theorem cancellation_semantics_witness :
    (2 ≤ (["aaaa", "bbbb", "cccc"] : List String).length) ∧
    exportWithTemplate 1 (some 2) ["aaaa", "bbbb", "cccc"] = ["aaaa"] := by
  refine ⟨by decide, ?_⟩
  have h := (cancellation_semantics 1 2 ["aaaa", "bbbb", "cccc"] (by decide)).1
  rw [h]
  rfl

/-! ### Claim C7 — per-file failure absorption -/

/-- C7: a file whose read fails is absorbed, never aborting the pipeline:
its fragment carries the literal `"ERROR READING FILE"` content, a notice
is sent to the diagnostic channel, and every file of the input still
contributes exactly one fragment to the output (plus the optional tree
fragment). -/
theorem per_file_failure_absorption (decode : List Nat → String)
    (cmp : String → String → Int) (files : List InputFile) (config : ExportConfig)
    (f : InputFile) (hmem : f ∈ files) (hfail : f.bytes = none) :
    formatOutput [{ path := f.relPath, content := "ERROR READING FILE" }] config.outputFormat
        ∈ processFiles decode cmp files config ∧
    ("Failed to read " ++ f.relPath) ∈ processFilesLog cmp files ∧
    (processFiles decode cmp files config).length
      = (if config.includeFileTree ∧ config.outputFormat ≠ "xml" then 1 else 0)
        + files.length := by
  have hmem' : f ∈ sortFiles cmp files := by
    unfold sortFiles
    exact (List.mergeSort_perm files _).mem_iff.mpr hmem
  refine ⟨?_, ?_, ?_⟩
  · unfold processFiles
    simp only
    apply List.mem_append.mpr
    right
    apply List.mem_map.mpr
    refine ⟨f, hmem', ?_⟩
    rw [hfail]
    rfl
  · unfold processFilesLog
    apply List.mem_filterMap.mpr
    refine ⟨f, hmem', ?_⟩
    rw [hfail]
  · have hlen : (sortFiles cmp files).length = files.length := by
      unfold sortFiles
      exact List.length_mergeSort files
    unfold processFiles
    simp only [List.length_append, List.length_map, hlen]
    split <;> simp

/-- Witness for C7: a two-file input whose first file fails to read. -/
theorem per_file_failure_absorption_witness :
    ((⟨"a.txt", none⟩ : InputFile) ∈ [(⟨"a.txt", none⟩ : InputFile), ⟨"b.txt", some [104]⟩]) ∧
    (formatOutput [{ path := "a.txt", content := "ERROR READING FILE" }] "text"
        ∈ processFiles (fun _ => "") (fun _ _ => 0)
            [⟨"a.txt", none⟩, ⟨"b.txt", some [104]⟩] ⟨"text", false, []⟩ ∧
      ("Failed to read " ++ "a.txt")
        ∈ processFilesLog (fun _ _ => 0) [⟨"a.txt", none⟩, ⟨"b.txt", some [104]⟩] ∧
      (processFiles (fun _ => "") (fun _ _ => 0)
          [⟨"a.txt", none⟩, ⟨"b.txt", some [104]⟩] ⟨"text", false, []⟩).length
        = (if (⟨"text", false, []⟩ : ExportConfig).includeFileTree
              ∧ (⟨"text", false, []⟩ : ExportConfig).outputFormat ≠ "xml" then 1 else 0)
          + ([(⟨"a.txt", none⟩ : InputFile), ⟨"b.txt", some [104]⟩]).length) :=
  ⟨by decide,
    per_file_failure_absorption (fun _ => "") (fun _ _ => 0)
      [⟨"a.txt", none⟩, ⟨"b.txt", some [104]⟩] ⟨"text", false, []⟩
      ⟨"a.txt", none⟩ (by decide) rfl⟩

/-! ### Claim C3 — canonical ordering and dedup -/

/-- A concrete locale-independent code-point comparator, used to
instantiate the comparator parameter at concrete inputs. -/
def codepointCmp (a b : String) : Int :=
  match compare a b with
  | .lt => -1
  | .eq => 0
  | .gt => 1

/-- C3 counterexample: an input with two identical paths is processed with
BOTH occurrences kept — the duplicate is not ignored — so the processed
sequence contains two entries that compare equal, and both are encoded. -/
theorem canonical_order_dedup_cex :
    (sortFiles codepointCmp [⟨"a.txt", none⟩, ⟨"a.txt", none⟩]).map InputFile.relPath
        = ["a.txt", "a.txt"] ∧
    codepointCmp "a.txt" "a.txt" = 0 ∧
    (processFiles (fun _ => "") codepointCmp [⟨"a.txt", none⟩, ⟨"a.txt", none⟩]
        ⟨"text", false, []⟩).length = 2 := by
  refine ⟨?_, by decide, ?_⟩
  · simp [sortFiles, List.mergeSort, List.splitInTwo, List.merge, codepointCmp]
  · unfold processFiles
    simp [sortFiles, List.length_mergeSort]

/-- C3 amended: the pipeline processes the identifiers sorted by the
`localeCompare` comparator handed to the sort (modelled as the `cmp`
parameter), and duplicate paths are NOT deduplicated: for every
comparator the processed sequence is a permutation of the input, keeping
every occurrence, so duplicate input paths yield equal processed
entries. -/
theorem canonical_order_no_dedup (cmp : String → String → Int) (files : List InputFile) :
    List.Perm (sortFiles cmp files) files ∧
    List.Perm ((sortFiles cmp files).map InputFile.relPath) (files.map InputFile.relPath) ∧
    (sortFiles cmp files).length = files.length := by
  refine ⟨List.mergeSort_perm files _, ?_, List.length_mergeSort files⟩
  exact (List.mergeSort_perm files _).map _

/-! ### Claim C5 — structured-format root wrapping -/

/-- C5 counterexample: with two files under the structured (xml) variant
the pipeline emits one `<workspace>`-rooted element per file, so the
joined document differs from the single-rooted whole-document encoding
that `formatOutput` would produce for the full pair list. -/
theorem structured_wrapping_cex :
    processFiles (fun _ => "hi") codepointCmp
        [⟨"a.txt", some [104, 105]⟩, ⟨"b.txt", some [104, 105]⟩] ⟨"xml", false, []⟩
      = ["<workspace>\n  <file path=\"a.txt\">\n    <![CDATA[\nhi\n    ]]>\n  </file>\n</workspace>",
         "<workspace>\n  <file path=\"b.txt\">\n    <![CDATA[\nhi\n    ]]>\n  </file>\n</workspace>"] ∧
    String.join (processFiles (fun _ => "hi") codepointCmp
        [⟨"a.txt", some [104, 105]⟩, ⟨"b.txt", some [104, 105]⟩] ⟨"xml", false, []⟩)
      ≠ formatOutput [⟨"a.txt", "hi"⟩, ⟨"b.txt", "hi"⟩] "xml" := by
  have hsort : sortFiles codepointCmp [⟨"a.txt", some [104, 105]⟩, ⟨"b.txt", some [104, 105]⟩]
      = [⟨"a.txt", some [104, 105]⟩, ⟨"b.txt", some [104, 105]⟩] := by
    simp [sortFiles, List.mergeSort, List.splitInTwo, List.merge, codepointCmp]
    decide
  have h1 : processFiles (fun _ => "hi") codepointCmp
      [⟨"a.txt", some [104, 105]⟩, ⟨"b.txt", some [104, 105]⟩] ⟨"xml", false, []⟩
      = ["<workspace>\n  <file path=\"a.txt\">\n    <![CDATA[\nhi\n    ]]>\n  </file>\n</workspace>",
         "<workspace>\n  <file path=\"b.txt\">\n    <![CDATA[\nhi\n    ]]>\n  </file>\n</workspace>"] := by
    unfold processFiles
    rw [hsort]
    rfl
  refine ⟨h1, ?_⟩
  rw [h1]
  decide

/-- C5 amended: under the structured (xml) variant the root element is
applied per encoder call, and the pipeline encodes one file per call, so
EVERY per-file fragment is itself wrapped in a `<workspace>` root; the
chunk assembler (which never inspects the format) applies no
structured-output special-casing, so assembled output carries one root
per file rather than a single document-level root. -/
theorem structured_wrapping_per_fragment (decode : List Nat → String)
    (cmp : String → String → Int) (files : List InputFile) (config : ExportConfig)
    (hfmt : config.outputFormat = "xml") :
    ∀ frag ∈ processFiles decode cmp files config,
      ∃ body, frag = "<workspace>\n" ++ body ++ "\n</workspace>" := by
  intro frag hfrag
  unfold processFiles at hfrag
  simp only [hfmt] at hfrag
  simp at hfrag
  obtain ⟨f, _, hfx⟩ := hfrag
  refine ⟨"  <file path=\"" ++ f.relPath ++ "\">\n    <![CDATA[\n"
    ++ loadFileContent decode f.bytes ++ "\n    ]]>\n  </file>", ?_⟩
  rw [← hfx]
  unfold formatOutput
  rw [if_pos rfl, List.map_singleton, strIntercalate_singleton]

/-- Witness for the amended C5: a single xml fragment produced by the
pipeline is wrapped in its own root element. -/
theorem structured_wrapping_witness :
    ((⟨"xml", true, []⟩ : ExportConfig).outputFormat = "xml") ∧
    ∃ body,
      "<workspace>\n  <file path=\"a.txt\">\n    <![CDATA[\nh\n    ]]>\n  </file>\n</workspace>"
        = "<workspace>\n" ++ body ++ "\n</workspace>" := by
  refine ⟨rfl, ?_⟩
  have hsort : sortFiles codepointCmp [⟨"a.txt", some [104]⟩] = [⟨"a.txt", some [104]⟩] := by
    simp [sortFiles, List.mergeSort]
  have hpf : processFiles (fun _ => "h") codepointCmp [⟨"a.txt", some [104]⟩] ⟨"xml", true, []⟩
      = ["<workspace>\n  <file path=\"a.txt\">\n    <![CDATA[\nh\n    ]]>\n  </file>\n</workspace>"] := by
    unfold processFiles
    rw [hsort]
    rfl
  exact structured_wrapping_per_fragment (fun _ => "h") codepointCmp
    [⟨"a.txt", some [104]⟩] ⟨"xml", true, []⟩ rfl _ (by rw [hpf]; exact List.mem_singleton.mpr rfl)
